import Mathlib

/-!
Verification development for the Narrahunt frontier-driven investigation
engine (`artifact_extractor.py`, `detective_agent.py`, `llm_integration.py`).

Shallow embedding conventions:
* Python strings are modelled as `List Char` (`Str`); timestamps use Lean's
  `String` so Mathlib's lexicographic linear order (which matches Python's
  code-point string comparison) is available.
* SHA-256 (`hashlib.sha256(...).hexdigest()` in `generate_hash`) is modelled
  by the normalized content itself: the hash is used solely as a dedup key and
  is assumed injective, so the whitespace-stripped lower-cased content is a
  faithful key model.
* External collaborators (HTTP fetch, archive API, the advisory LLM, the
  HTML parser `BeautifulSoup`) are out of scope per the design document and
  appear only as parameters (fetch outcomes as `Bool`, the document text as
  the already-extracted plain text, `random.sample` as a choice function).
-/

abbrev Str := List Char

/-- Python `str.lower()` restricted to ASCII, which covers every string the
scoring and alias logic compares (domains, hex content, warning phrases). -/
def pyLowerChar (c : Char) : Char :=
  if 65 ≤ c.toNat ∧ c.toNat ≤ 90 then Char.ofNat (c.toNat + 32) else c

def pyLower (s : Str) : Str := s.map pyLowerChar

/-- The character class matched by Python's regex `\s` and stripped by
`str.strip()` for ASCII text: space, tab, newline, carriage return,
vertical tab, form feed. -/
def pyIsSpace (c : Char) : Bool :=
  c.toNat = 32 || c.toNat = 9 || c.toNat = 10 || c.toNat = 13 ||
  c.toNat = 11 || c.toNat = 12

/-- Python's `pat in s` substring test. -/
def containsSub (pat : Str) : Str → Bool
  | [] => pat.isPrefixOf []
  | c :: t => pat.isPrefixOf (c :: t) || containsSub pat t

/-- The suffix of `s` after the first occurrence of `pat`
(Python `s.split(pat, 1)[1]`, defined when `pat in s`). -/
def afterFirst (pat : Str) : Str → Option Str
  | [] => if pat.isPrefixOf ([] : Str) then some [] else none
  | c :: t =>
    if pat.isPrefixOf (c :: t) then some ((c :: t).drop pat.length)
    else afterFirst pat t

/-- The chunk of `s` before the first occurrence of `pat`
(Python `s.split(pat, 1)[0]`). -/
def beforeFirst (pat : Str) : Str → Str
  | [] => []
  | c :: t => if pat.isPrefixOf (c :: t) then [] else c :: beforeFirst pat t

/-- Python `str.strip()`. -/
def pyStrip (s : Str) : Str :=
  ((s.dropWhile pyIsSpace).reverse.dropWhile pyIsSpace).reverse

/-- Lexicographic (code-point) strict comparison, Python's `<` on strings. -/
def lexLt : Str → Str → Bool
  | [], [] => false
  | [], _ :: _ => true
  | _ :: _, [] => false
  | a :: as_, b :: bs =>
    if a.toNat < b.toNat then true
    else if b.toNat < a.toNat then false
    else lexLt as_ bs

/-! ### `artifact_extractor.py`: configuration constants -/

def TRUSTED_DOMAINS : List Str :=
  ["ethereum.org", "ethereum.foundation", "eips.ethereum.org",
   "blog.ethereum.org", "vitalik.ca"].map String.toList

def COMMUNITY_DOMAINS : List Str :=
  ["medium.com", "hackernoon.com", "reddit.com", "github.com",
   "steemit.com", "mirror.xyz"].map String.toList

def WARNING_PHRASES : List Str :=
  ["do not use in production", "example only", "not for production",
   "test key", "sample key", "dummy key", "do not use",
   "for testing"].map String.toList

/-! ### `artifact_extractor.py`: scoring and hashing -/

/-- `score_artifact(url, content, date)` after the `urlparse(url).netloc`
step: the function takes the already-extracted domain (URL parsing is
library glue outside the engine).  The date is `Option` for Python `None`;
the Python truthiness test `if date and date < "2022-01-01"` also skips an
empty-string date. -/
def score_artifact (domain : Str) (content : Str) (date : Option Str) : Int :=
  let s0 : Int := 0
  let s1 := if TRUSTED_DOMAINS.any (fun t => t.isSuffixOf domain) then s0 + 3 else s0
  let s2 := if (".org".toList).isSuffixOf domain then s1 + 1 else s1
  let s3 := if COMMUNITY_DOMAINS.any (fun t => t.isSuffixOf domain) then s2 - 5 else s2
  let s4 := match date with
            | some d => if (¬ d.isEmpty) ∧ lexLt d ("2022-01-01".toList) then s3 + 1 else s3
            | none => s3
  let contentLower := pyLower content
  let s5 := if WARNING_PHRASES.any (fun w => containsSub w contentLower) then s4 - 10 else s4
  if 20 < content.length then s5 + 2 else s5

/-- `generate_hash(content)`: SHA-256 over `re.sub(r'\s+', '', content.lower())`,
modelled by the normalized content itself (see header). -/
def generate_hash (content : Str) : Str :=
  (pyLower content).filter (fun c => ¬ pyIsSpace c)

/-- One extracted artifact (fields used by the engine; the redacted summary
and diagnostic location carry no behavioral weight for these claims). -/
structure Artifact where
  atype : Str
  content : Str
  hash : Str
  score : Int
deriving DecidableEq

def mkArtifact (atype domain : Str) (date : Option Str) (content : Str) : Artifact :=
  { atype := atype, content := content, hash := generate_hash content,
    score := score_artifact domain content date }

/-- The per-candidate loop shared by every extraction family: hash the
candidate, skip it when the hash was already seen in this document, else
record the hash and emit a scored artifact.  Returns the artifacts and the
grown seen-set (Python threads the mutable `artifact_hashes` set). -/
def runFamily (atype domain : Str) (date : Option Str) :
    List Str → List Str → List Artifact × List Str
  | [], seen => ([], seen)
  | c :: cs, seen =>
    let h := generate_hash c
    if h ∈ seen then runFamily atype domain date cs seen
    else
      let rest := runFamily atype domain date cs (h :: seen)
      (mkArtifact atype domain date c :: rest.1, rest.2)

/-! ### `artifact_extractor.py`: regex scanners

The fixed regular expressions of `extract_wallet_addresses` and
`extract_private_keys` are translated into deterministic scanners; `finditer`
semantics (leftmost match, continue after the match end, non-overlapping) is
`scanWith`. -/

def hexDigitChar (c : Char) : Bool :=
  (48 ≤ c.toNat ∧ c.toNat ≤ 57) || (97 ≤ c.toNat ∧ c.toNat ≤ 102) ||
  (65 ≤ c.toNat ∧ c.toNat ≤ 70)

/-- Take exactly `n` hex digits, returning them and the rest. -/
def takeExactHex : Nat → Str → Option (Str × Str)
  | 0, s => some ([], s)
  | n + 1, [] => (fun _ => none) n
  | n + 1, c :: t =>
    if hexDigitChar c then
      match takeExactHex n t with
      | some (pre, rest) => some (c :: pre, rest)
      | none => none
    else none

/-- `re.finditer` driver: at each position try the matcher; on a match emit
the captured text and resume after the match, else advance one character.
Every matcher below consumes at least one character, so fuel = input length
is exact. -/
def scanWith (m : Str → Option (Str × Str)) : Nat → Str → List Str
  | 0, _ => []
  | _ + 1, [] => []
  | fuel + 1, c :: t =>
    match m (c :: t) with
    | some (cap, rest) => cap :: scanWith m fuel rest
    | none => scanWith m fuel t

/-- Matcher for `0x[0-9a-fA-F]{40}` (wallet addresses).  Captures the whole
match. -/
def matchAddress (s : Str) : Option (Str × Str) :=
  match s with
  | a :: b :: t =>
    if a = '0' ∧ b = 'x' then
      match takeExactHex 40 t with
      | some (hx, rest) => some (a :: b :: hx, rest)
      | none => none
    else none
  | _ => none

/-- Matcher for `0x[0-9a-fA-F]{64}` (standalone hex private keys).  Captures
the whole match, `0x` included (`match.group(0)`). -/
def matchHex64 (s : Str) : Option (Str × Str) :=
  match s with
  | a :: b :: t =>
    if a = '0' ∧ b = 'x' then
      match takeExactHex 64 t with
      | some (hx, rest) => some (a :: b :: hx, rest)
      | none => none
    else none
  | _ => none

/-- Case-insensitive literal match: consume `lit` (given lower-case). -/
def matchLitCI (lit : Str) (s : Str) : Option Str :=
  if pyLower (s.take lit.length) = lit ∧ lit.length ≤ s.length
  then some (s.drop lit.length) else none

def dropWs (s : Str) : Str := s.dropWhile pyIsSpace

/-- The label alternation `(?:private\s*key|secret\s*key|key)` of the
labeled-private-key regex (case-insensitive, alternatives in regex order;
their first letters differ so the alternation is deterministic). -/
def matchKeyLabel (s : Str) : Option Str :=
  match matchLitCI ("private".toList) s with
  | some r => matchLitCI ("key".toList) (dropWs r)
  | none =>
    match matchLitCI ("secret".toList) s with
    | some r => matchLitCI ("key".toList) (dropWs r)
    | none => matchLitCI ("key".toList) s

/-- The separator `(?:\s*[:=])?\s*` of the labeled-key regex: composed, the
two pieces accept exactly whitespace, an optional `:` or `=`, more
whitespace. -/
def skipSep (s : Str) : Str :=
  match dropWs s with
  | c :: t => if c = ':' ∨ c = '=' then dropWs t else dropWs s
  | [] => dropWs s

/-- The optional quote `(?:'|")?`; deterministic because a quote is never a
hex digit. -/
def skipQuote (s : Str) : Str :=
  match s with
  | c :: t => if c = '\'' ∨ c = '"' then t else s
  | [] => s

/-- Matcher for
`(?:private\s*key|secret\s*key|key)(?:\s*[:=])?\s*(?:'|")?([0-9a-fA-F]{64})(?:'|")?`
(case-insensitive).  Captures group 1, the 64 hex characters; the returned
rest follows the full match (including a closing quote when present). -/
def matchLabeledKey (s : Str) : Option (Str × Str) :=
  match matchKeyLabel s with
  | none => none
  | some r0 =>
    match takeExactHex 64 (skipQuote (skipSep r0)) with
    | none => none
    | some (hx, r5) => some (hx, skipQuote r5)

/-- `extract_wallet_addresses(soup, url, date, artifact_hashes)` over the
document's plain text. -/
def extract_wallet_addresses (doc : Str) (domain : Str) (date : Option Str)
    (seen : List Str) : List Artifact × List Str :=
  runFamily ("wallet_address".toList) domain date
    (scanWith matchAddress doc.length doc) seen

/-- `extract_private_keys(soup, url, date, artifact_hashes)`: first the
labeled-key regex, then the standalone `0x`+64-hex regex, threading the
seen-hash set. -/
def extract_private_keys (doc : Str) (domain : Str) (date : Option Str)
    (seen : List Str) : List Artifact × List Str :=
  let p1 := runFamily ("private_key".toList) domain date
    (scanWith matchLabeledKey doc.length doc) seen
  let p2 := runFamily ("private_key".toList) domain date
    (scanWith matchHex64 doc.length doc) p1.2
  (p1.1 ++ p2.1, p2.2)

/-- `extract_artifacts_from_html(html_content, url, date)`.  The six
artifact families run in sequence over one shared seen-hash set that starts
empty.  Candidate discovery (regexes over `BeautifulSoup` text, code-block
restriction, wordlist filtering) is abstracted into per-family candidate
scanners `fams : (type, document ↦ candidate contents)`; the dedup threading,
guard clauses and artifact construction are concrete.  `content = none`
models Python `html_content is None`. -/
def extract_artifacts_from_html (fams : List (Str × (Str → List Str)))
    (domain : Str) (date : Option Str) (content : Option Str) : List Artifact :=
  match content with
  | none => []
  | some doc =>
    if doc.length < 100 then []
    else
      (fams.foldl (fun acc fam =>
        let r := runFamily fam.1 domain date (fam.2 doc) acc.2
        (acc.1 ++ r.1, r.2)) ([], [])).1

/-! ### `detective_agent.py`: targets, frontier queue, visited suppression -/

/-- One frontier target.  Python targets are dicts; `url`/`query` default to
the empty string when absent and `priority` defaults to `0`
(`target.get('priority', 0)`), so total fields are faithful.  The
`rationale`, `engine` and `year_range` entries have no effect on the
properties below. -/
structure Target where
  ttype : Str
  url : Str
  query : Str
  priority : Int
  useWayback : Bool
deriving DecidableEq

/-- The filter at the head of `_update_research_queue`: drop targets whose
kind-specific visited key is already in `investigated_urls`; targets of
unknown kind pass through. -/
def filterNew (visited : List Str) (ts : List Target) : List Target :=
  ts.filter (fun t => decide (¬
    ((t.ttype = "website".toList ∧ t.url ∈ visited) ∨
     (t.ttype = "wayback".toList ∧ ("wayback:".toList ++ t.url) ∈ visited) ∨
     (t.ttype = "search".toList ∧ ("search:".toList ++ t.query) ∈ visited) ∨
     (t.ttype = "github".toList ∧ t.url ∈ visited))))

/-- The VisitedKey of a target, as used both by the push filter and by the
dispatch handlers; `none` for unknown kinds. -/
def visitedKey (t : Target) : Option Str :=
  if t.ttype = "website".toList then some t.url
  else if t.ttype = "wayback".toList then some ("wayback:".toList ++ t.url)
  else if t.ttype = "search".toList then some ("search:".toList ++ t.query)
  else if t.ttype = "github".toList then some t.url
  else none

/-- The locator a dispatch handler guards with `if not ...: return []`: the
query for search targets, the URL otherwise. -/
def targetLocator (t : Target) : Str :=
  if t.ttype = "search".toList then t.query else t.url

/-- Descending-priority ordering used by
`research_queue.sort(key=lambda x: x.get('priority', 0), reverse=True)`;
Python's sort is stable, as is `List.insertionSort`. -/
def tge (a b : Target) : Prop := b.priority ≤ a.priority

instance : DecidableRel tge :=
  fun a b => inferInstanceAs (Decidable (b.priority ≤ a.priority))

instance : IsTotal Target tge := ⟨fun a b => le_total b.priority a.priority⟩

instance : IsTrans Target tge := ⟨fun _ _ _ hab hbc => le_trans hbc hab⟩

/-- `_update_research_queue`: filter out already-visited targets, append the
survivors, re-sort the whole queue stably by descending priority. -/
def updateResearchQueue (visited : List Str) (queue : List Target)
    (newTargets : List Target) : List Target :=
  List.insertionSort tge (queue ++ filterNew visited newTargets)

/-- `_get_next_investigation_target`: `None` on an empty queue, else
`research_queue.pop(0)`. -/
def popTarget (queue : List Target) : Option (Target × List Target) :=
  match queue with
  | [] => none
  | t :: rest => some (t, rest)

/-- A sequence of pushes starting from an empty frontier. -/
def pushAll (visited : List Str) (batches : List (List Target)) : List Target :=
  batches.foldl (updateResearchQueue visited) []

/-- Record a visited key unless already present (the handlers first test
membership in `investigated_urls`, then `add`). -/
def addKey (k : Str) (v : List Str) : List Str := if k ∈ v then v else k :: v

/-- `'*' in url and 'web.archive.org/web/' in url`
(`_investigate_website`'s Wayback-calendar test). -/
def isCalendarUrl (url : Str) : Bool :=
  url.contains '*' && containsSub ("web.archive.org/web/".toList) url

/-- `re.match(r'https://web\.archive\.org/web/(\d{4,14})\*/(.+)', url)` from
`_investigate_wayback_calendar`, returning group 2 (the original URL).  The
digit run is maximal (no digit can satisfy the following literal `*`). -/
def parseCalendar (url : Str) : Option Str :=
  let pre := "https://web.archive.org/web/".toList
  if pre.isPrefixOf url then
    let rest := url.drop pre.length
    let ds := rest.takeWhile (fun c => decide (48 ≤ c.toNat ∧ c.toNat ≤ 57))
    let rest2 := rest.dropWhile (fun c => decide (48 ≤ c.toNat ∧ c.toNat ≤ 57))
    if 4 ≤ ds.length ∧ ds.length ≤ 14 then
      match rest2 with
      | '*' :: '/' :: orig => if orig.isEmpty then none else some orig
      | _ => none
    else none
  else none

/-- Effect of `_investigate_website` on `investigated_urls`.  A missing
locator (`if not url: return []`, Python falsy: absent or empty) records
nothing.  A calendar URL is delegated before the visited check and never
records the website key itself: at most the fallback `_investigate_wayback`
on a failed fetch records `"wayback:" + original`.  Otherwise the URL is
recorded before fetching; on a failed fetch with `use_wayback` the wayback
fallback records its key too.  `fetchOk` stands for the external fetch
outcome (an exception behaves like a failed fetch with no wayback fallback,
which records the same keys as `fetchOk = true`). -/
def websiteVisit (fetchOk useWayback : Bool) (url : Str) (v : List Str) : List Str :=
  if url.isEmpty then v
  else if isCalendarUrl url then
    match parseCalendar url with
    | none => v
    | some orig => if fetchOk then v else addKey ("wayback:".toList ++ orig) v
  else if url ∈ v then v
  else if fetchOk then url :: v
  else if useWayback then addKey ("wayback:".toList ++ url) (url :: v)
  else url :: v

/-- Effect of `_investigate_wayback` on `investigated_urls`
(`if not url: return []` records nothing). -/
def waybackVisit (url : Str) (v : List Str) : List Str :=
  if url.isEmpty then v
  else addKey ("wayback:".toList ++ url) v

/-- Effect of `_execute_search` on `investigated_urls`
(`if not query: return []` records nothing). -/
def searchVisit (query : Str) (v : List Str) : List Str :=
  if query.isEmpty then v
  else addKey ("search:".toList ++ query) v

/-- Effect of `_investigate_github`: `if not github_url: return []` records
nothing; else record the URL, then delegate to the website handler with a
fresh `{'url': ..., 'type': 'website'}` target (no `use_wayback` entry,
hence `False`). -/
def githubVisit (fetchOk : Bool) (url : Str) (v : List Str) : List Str :=
  if url.isEmpty then v
  else if url ∈ v then v
  else websiteVisit fetchOk false url (url :: v)

/-- Effect of `_execute_investigation` (the dispatch switch) on
`investigated_urls`; unknown kinds are a warning no-op. -/
def dispatchVisited (fetchOk : Bool) (t : Target) (v : List Str) : List Str :=
  if t.ttype = "website".toList then websiteVisit fetchOk t.useWayback t.url v
  else if t.ttype = "search".toList then searchVisit t.query v
  else if t.ttype = "wayback".toList then waybackVisit t.url v
  else if t.ttype = "github".toList then githubVisit fetchOk t.url v
  else v

/-! ### `detective_agent.py`: controller loop on an always-empty frontier -/

inductive StopReason
  | iterLimit
  | idleLimit
  | timeLimit
  | fuelOut
deriving DecidableEq

structure RunResult where
  iterations : Nat
  reason : StopReason
deriving DecidableEq

/-- The `start_investigation` main loop specialised to a frontier that stays
empty (`_get_next_investigation_target` returns `None` every iteration and
`_generate_new_leads` adds nothing).  The loop guard is
`_should_continue_investigation`, whose three stop conditions are checked in
order: iteration count, idle count, wall clock (`timeUp i` models
`elapsed ≥ max_time_seconds` at the check before iteration `i + 1`).  The
body increments the iteration counter, finds no target, increments the idle
counter and breaks once it reaches the idle maximum.  Fuel is structural;
`maxIterations + 1` steps always suffice because every step increments the
iteration counter. -/
def loopEmptyFrontier (maxIterations maxIdleIterations : Nat)
    (timeUp : Nat → Bool) : Nat → Nat → Nat → RunResult
  | 0, iter, _ => ⟨iter, StopReason.fuelOut⟩
  | fuel + 1, iter, idle =>
    if maxIterations ≤ iter then ⟨iter, StopReason.iterLimit⟩
    else if maxIdleIterations ≤ idle then ⟨iter, StopReason.idleLimit⟩
    else if timeUp iter then ⟨iter, StopReason.timeLimit⟩
    else
      let iter' := iter + 1
      let idle' := idle + 1
      if maxIdleIterations ≤ idle' then ⟨iter', StopReason.idleLimit⟩
      else loopEmptyFrontier maxIterations maxIdleIterations timeUp fuel iter' idle'

def startInvestigationEmpty (maxIterations maxIdleIterations : Nat)
    (timeUp : Nat → Bool) : RunResult :=
  loopEmptyFrontier maxIterations maxIdleIterations timeUp (maxIterations + 1) 0 0

/-! ### `detective_agent.py`: `_process_artifacts` -/

def highValueTypes : List Str :=
  ["username", "alias", "wallet_address", "private_key"].map String.toList

def aliasDiscoveryTypes : List Str :=
  ["username", "alias", "wallet_address"].map String.toList

structure Discovery where
  id : Str
  dtype : Str
  content : Str
  score : Int
deriving DecidableEq

/-- `_is_duplicate_discovery`: same id, or same non-empty content. -/
def isDuplicateDiscovery (discoveries : List Discovery) (d : Discovery) : Bool :=
  discoveries.any (fun e =>
    decide (e.id = d.id) || (decide (e.content = d.content) && !d.content.isEmpty))

/-- The `_process_artifacts` loop.  State: remaining artifacts, the growing
`entity_aliases`, and `self.discoveries` (prior plus appended).  Returns
`new_discoveries` and the two final sets.  Per artifact: +2 for high-value
types, +1 when a known alias occurs (case-insensitively) in the content,
skip unless the adjusted score is positive, skip duplicates, else append a
discovery and record name-like contents as new aliases. -/
def processArtifactsLoop :
    List Artifact → List Str → List Discovery →
    List Discovery × List Str × List Discovery
  | [], aliases, allDisc => ([], aliases, allDisc)
  | a :: rest, aliases, allDisc =>
    let score1 := a.score + (if a.atype ∈ highValueTypes then 2 else 0)
    let contentLower := pyLower a.content
    let score2 := if aliases.any (fun al => containsSub (pyLower al) contentLower)
                  then score1 + 1 else score1
    if score2 ≤ 0 then processArtifactsLoop rest aliases allDisc
    else
      let d : Discovery := ⟨a.hash, a.atype, a.content, score2⟩
      if isDuplicateDiscovery allDisc d then processArtifactsLoop rest aliases allDisc
      else
        let aliases' := if a.atype ∈ aliasDiscoveryTypes
                        then aliases ++ [a.content] else aliases
        let r := processArtifactsLoop rest aliases' (allDisc ++ [d])
        (d :: r.1, r.2.1, r.2.2)

/-- `_process_artifacts(artifacts, ...)` returning `new_discoveries`. -/
def process_artifacts (arts : List Artifact) (aliases : List Str)
    (prior : List Discovery) : List Discovery :=
  (processArtifactsLoop arts aliases prior).1

/-- The score adjustment of `_process_artifacts`, stated as one formula for
comparison with the loop above. -/
def adjustedScoreSpec (aliases : List Str) (a : Artifact) : Int :=
  a.score + (if a.atype ∈ highValueTypes then 2 else 0) +
    (if aliases.any (fun al => containsSub (pyLower al) (pyLower a.content))
     then 1 else 0)

/-! ### `detective_agent.py`: snapshot sampling in `_investigate_wayback` -/

structure Snapshot where
  timestamp : String
  wayback_url : String
deriving DecidableEq

/-- Ordering of `sorted(snapshots, key=lambda x: x.get('timestamp', ''))`:
Lean's `String` order is the same code-point lexicographic comparison as
Python's. -/
def tsle (a b : Snapshot) : Prop := a.timestamp ≤ b.timestamp

instance : DecidableRel tsle :=
  fun a b => inferInstanceAs (Decidable (a.timestamp ≤ b.timestamp))

instance : IsTotal Snapshot tsle := ⟨fun a b => le_total a.timestamp b.timestamp⟩

instance : IsTrans Snapshot tsle := ⟨fun _ _ _ hab hbc => le_trans hab hbc⟩

/-- The sampling step of `_investigate_wayback` (lines 446-460): with more
than 5 snapshots, sort by timestamp, keep the earliest and the latest, and
extend with `random.sample(middle, min(3, len(middle)))`; otherwise keep the
input list as is.  `pick` models `random.sample` over the interior
`sorted[1:-1]`. -/
def sampleSnapshots (pick : List Snapshot → List Snapshot)
    (snapshots : List Snapshot) : List Snapshot :=
  if 5 < snapshots.length then
    match List.insertionSort tsle snapshots with
    | [] => []
    | s :: rest =>
      let selected := [s, (s :: rest).getLast (List.cons_ne_nil s rest)]
      if 2 < (s :: rest).length then selected ++ pick ((s :: rest).tail.dropLast)
      else selected
  else snapshots

/-! ### `llm_integration.py`: `_extract_json` and JSON syntax

`json.loads` acceptance is modelled by an executable checker for the JSON
grammar as the Python `json` module accepts it (objects, arrays, strings
with escapes, numbers, `true`/`false`/`null` and the Python extensions
`NaN`/`Infinity`/`-Infinity`), via an explicit frame stack with structural
fuel (one unit per character suffices: every recursive step first consumes
input). -/

def openBrace : Char := Char.ofNat 123

def closeBrace : Char := Char.ofNat 125

def jsonWsChar (c : Char) : Bool :=
  c.toNat = 32 || c.toNat = 9 || c.toNat = 10 || c.toNat = 13

def skipJWs (s : Str) : Str := s.dropWhile jsonWsChar

def jEscapeChar (c : Char) : Bool :=
  c = '"' || c = '\\' || c = '/' || c = 'b' || c = 'f' ||
  c = 'n' || c = 'r' || c = 't'

/-- Scan the remainder of a JSON string after its opening quote. -/
def jstringRest : Str → Option Str
  | [] => none
  | c :: r =>
    if c = '"' then some r
    else if c = '\\' then
      match r with
      | [] => none
      | e :: r2 =>
        if jEscapeChar e then jstringRest r2
        else if e = 'u' then
          match r2 with
          | h1 :: h2 :: h3 :: h4 :: r6 =>
            if hexDigitChar h1 && hexDigitChar h2 && hexDigitChar h3 &&
               hexDigitChar h4
            then jstringRest r6 else none
          | _ => none
        else none
    else if c.toNat < 32 then none
    else jstringRest r

def digitChar (c : Char) : Bool := 48 ≤ c.toNat && c.toNat ≤ 57

/-- Optional fraction and exponent of a JSON number. -/
def jfracExp (s : Str) : Option Str :=
  let s1 : Option Str :=
    match s with
    | '.' :: r =>
      match r with
      | d :: _ => if digitChar d then some (r.dropWhile digitChar) else none
      | [] => none
    | _ => some s
  match s1 with
  | none => none
  | some s2 =>
    match s2 with
    | e :: r =>
      if e = 'e' ∨ e = 'E' then
        let r2 := match r with
                  | c :: t => if c = '+' ∨ c = '-' then t else r
                  | [] => r
        match r2 with
        | d :: _ => if digitChar d then some (r2.dropWhile digitChar) else none
        | [] => none
      else some s2
    | [] => some s2

/-- A JSON number (minus sign, integer part without leading zeros, optional
fraction and exponent). -/
def jnumber (s : Str) : Option Str :=
  let s1 := match s with
            | '-' :: r => r
            | _ => s
  match s1 with
  | c :: r =>
    if c = '0' then jfracExp r
    else if digitChar c then jfracExp (r.dropWhile digitChar)
    else none
  | [] => none

inductive JFrame
  | objF
  | arrF
deriving DecidableEq

/-- An object key string followed by whitespace and a colon. -/
def jsonKeyColon (s : Str) : Option Str :=
  match s with
  | c :: r =>
    if c = '"' then
      match jstringRest r with
      | some r2 =>
        match skipJWs r2 with
        | ':' :: r4 => some r4
        | _ => none
      | none => none
    else none
  | [] => none

/-- Stack-based JSON scanner.  Mode `true`: a value is expected; mode
`false`: a value just ended, continue the enclosing container.  Returns the
unconsumed remainder on success. -/
def jsonRun : Nat → Bool → List JFrame → Str → Option Str
  | 0, _, _, _ => none
  | fuel + 1, true, st, s =>
    let s1 := skipJWs s
    match s1 with
    | [] => none
    | c :: r =>
      if c = openBrace then
        match skipJWs r with
        | d :: r2 =>
          if d = closeBrace then jsonRun fuel false st r2
          else
            match jsonKeyColon (d :: r2) with
            | some r3 => jsonRun fuel true (JFrame.objF :: st) r3
            | none => none
        | [] => none
      else if c = '[' then
        match skipJWs r with
        | d :: r2 =>
          if d = ']' then jsonRun fuel false st r2
          else jsonRun fuel true (JFrame.arrF :: st) (d :: r2)
        | [] => none
      else if c = '"' then
        match jstringRest r with
        | some r2 => jsonRun fuel false st r2
        | none => none
      else if ("true".toList).isPrefixOf s1 then jsonRun fuel false st (s1.drop 4)
      else if ("false".toList).isPrefixOf s1 then jsonRun fuel false st (s1.drop 5)
      else if ("null".toList).isPrefixOf s1 then jsonRun fuel false st (s1.drop 4)
      else if ("NaN".toList).isPrefixOf s1 then jsonRun fuel false st (s1.drop 3)
      else if ("Infinity".toList).isPrefixOf s1 then jsonRun fuel false st (s1.drop 8)
      else if ("-Infinity".toList).isPrefixOf s1 then jsonRun fuel false st (s1.drop 9)
      else
        match jnumber s1 with
        | some r2 => jsonRun fuel false st r2
        | none => none
  | fuel + 1, false, st, s =>
    let s1 := skipJWs s
    match st with
    | [] => some s1
    | JFrame.objF :: st' =>
      match s1 with
      | c :: r =>
        if c = ',' then
          match jsonKeyColon (skipJWs r) with
          | some r2 => jsonRun fuel true st r2
          | none => none
        else if c = closeBrace then jsonRun fuel false st' r
        else none
      | [] => none
    | JFrame.arrF :: st' =>
      match s1 with
      | c :: r =>
        if c = ',' then jsonRun fuel true st r
        else if c = ']' then jsonRun fuel false st' r
        else none
      | [] => none

/-- `json.loads(s)` succeeds syntactically. -/
def isValidJson (s : Str) : Bool :=
  match jsonRun (s.length + 1) true [] s with
  | some rest => rest.isEmpty
  | none => false

def fenceJsonTok : Str := "```json".toList

def fenceTok : Str := "```".toList

/-- The stripped text between the opening fence suffix `rest` and the next
closing fence: `rest.split("```", 1)[0].strip()`. -/
def fencedChunk (rest : Str) : Str := pyStrip (beforeFirst fenceTok rest)

/-- `text[text.find("\x7b") : text.rfind("\x7d") + 1].strip()`, the
first-brace/last-brace span (empty when the last `\x7d` precedes the first
`\x7b`, as in Python slicing). -/
def braceSpan (text : Str) : Str :=
  pyStrip ((text.drop (text.findIdx (fun c => c = openBrace))).take
    (text.length - 1 - (text.reverse.findIdx (fun c => c = closeBrace)) + 1 -
      text.findIdx (fun c => c = openBrace)))

/-- `LLMIntegration._extract_json`.  Branch 1: a ```json fence — returns the
stripped fenced text without validation.  Branch 2 (Python's `elif`): a plain
``` fence — returns the stripped fenced text only when it parses as JSON.
Branch 3: the first-brace/last-brace span, validated.  Fallback: the
two-character empty-object string. -/
def extractJson (text : Str) : Str :=
  match (match afterFirst fenceJsonTok text with
         | some rest =>
           if containsSub fenceTok rest then some (fencedChunk rest) else none
         | none => none : Option Str) with
  | some r => r
  | none =>
    match (match afterFirst fenceTok text with
           | some rest =>
             if containsSub fenceTok rest then
               if isValidJson (fencedChunk rest) then some (fencedChunk rest)
               else none
             else none
           | none => none : Option Str) with
    | some r => r
    | none =>
      match (if openBrace ∈ text ∧ closeBrace ∈ text then
               if isValidJson (braceSpan text) then some (braceSpan text) else none
             else none : Option Str) with
      | some r => r
      | none => [openBrace, closeBrace]

/-- Branch 1 of `_extract_json` fires: the text holds a ```json fence with a
closing ```. -/
def jsonFenceFires (text : Str) : Bool :=
  match afterFirst fenceJsonTok text with
  | some rest => containsSub fenceTok rest
  | none => false

/-! ### Helper lemmas: substrings, lower-casing, warning phrases -/

lemma containsSub_mem {pat s : Str} (h : containsSub pat s = true) :
    ∀ c ∈ pat, c ∈ s := by
  induction s with
  | nil =>
    intro c hc
    unfold containsSub at h
    cases pat with
    | nil => simp at hc
    | cons p ps => simp [List.isPrefixOf] at h
  | cons a t ih =>
    intro c hc
    unfold containsSub at h
    rcases Bool.or_eq_true _ _ ▸ h with hpre | hrec
    · exact (List.isPrefixOf_iff_prefix.mp hpre).sublist.mem hc
    · exact List.mem_cons_of_mem a (ih hrec c hc)

lemma pyLowerChar_eq_space {c : Char} (h : pyLowerChar c = ' ') : c = ' ' := by
  unfold pyLowerChar at h
  split at h
  · rename_i hc
    obtain ⟨h1, h2⟩ := hc
    exfalso
    generalize hg : c.toNat = n at h1 h2 h
    interval_cases n <;> exact absurd h (by decide)
  · exact h

/-- Characters that can occur in an extracted hex key or address
(`[0-9a-fA-F]` plus the literal `x` of the `0x` marker). -/
def keyChar (c : Char) : Bool := hexDigitChar c || c = 'x'

/-- No warning phrase can occur inside hex-only content: every configured
phrase contains a space, and lower-casing hex-like characters never
produces one. -/
lemma warning_phrases_miss_hexish {content : Str}
    (h : ∀ c ∈ content, keyChar c = true) :
    (WARNING_PHRASES.any fun w => containsSub w (pyLower content)) = false := by
  rw [← Bool.not_eq_true, List.any_eq_true]
  rintro ⟨w, hw, hcs⟩
  have hspace : ' ' ∈ w := by
    simp only [WARNING_PHRASES, List.mem_map, List.mem_cons, List.not_mem_nil,
      or_false] at hw
    obtain ⟨ws, hws, rfl⟩ := hw
    rcases hws with rfl | rfl | rfl | rfl | rfl | rfl | rfl | rfl <;> decide
  have hmem : ' ' ∈ pyLower content := containsSub_mem hcs ' ' hspace
  obtain ⟨c, hc, hcl⟩ := List.mem_map.mp hmem
  have hk := h c hc
  rw [pyLowerChar_eq_space hcl] at hk
  exact absurd hk (by decide)

/-! ### C10 -/

/-- C10: the artifact extraction entry point returns the empty list whenever
the input content is `None` or shorter than 100 characters, regardless of
the artifact families and of what the content would otherwise yield. -/
theorem extract_minimum_content_cutoff
    (fams : List (Str × (Str → List Str))) (domain : Str) (date : Option Str)
    (content : Option Str)
    (h : content = none ∨ ∃ doc, content = some doc ∧ doc.length < 100) :
    extract_artifacts_from_html fams domain date content = [] := by
  rcases h with rfl | ⟨doc, rfl, hlen⟩
  · rfl
  · simp [extract_artifacts_from_html, hlen]

/-- Witness for C10 at content that would otherwise yield a wallet-address
artifact: 42 characters is under the cutoff, so nothing is extracted. -/
theorem extract_minimum_content_cutoff_witness :
    extract_artifacts_from_html
      [("wallet_address".toList, fun d => scanWith matchAddress d.length d)]
      ("ethereum.org".toList) none (some ('0' :: 'x' :: List.replicate 40 'a')) = [] :=
  extract_minimum_content_cutoff _ _ _ _ (Or.inr ⟨_, rfl, by decide⟩)

/-! ### C8 -/

lemma loopEmptyFrontier_noTime (mi midle : Nat) (tu : Nat → Bool)
    (h : ∀ n, tu n = false) :
    ∀ fuel iter idle, loopEmptyFrontier mi midle tu fuel iter idle =
      loopEmptyFrontier mi midle (fun _ => false) fuel iter idle := by
  intro fuel
  induction fuel with
  | zero => intro iter idle; rfl
  | succ n ih =>
    intro iter idle
    simp only [loopEmptyFrontier, h, ih]

/-- C8: with `maxIterations = 3` and `maxIdleIterations ≤ 3`, a run whose
frontier stays empty (and whose wall-clock budget is never exhausted)
terminates within 3 iterations, and it is the idle-count guard that ends
the loop. -/
theorem controller_idle_guard_terminates (maxIdle : Nat) (hm : maxIdle ≤ 3)
    (timeUp : Nat → Bool) (ht : ∀ n, timeUp n = false) :
    (startInvestigationEmpty 3 maxIdle timeUp).iterations ≤ 3 ∧
    (startInvestigationEmpty 3 maxIdle timeUp).reason = StopReason.idleLimit := by
  unfold startInvestigationEmpty
  rw [loopEmptyFrontier_noTime 3 maxIdle timeUp ht]
  interval_cases maxIdle <;> exact ⟨by decide, by decide⟩

/-- Witness for C8 with the idle maximum at its largest allowed value. -/
theorem controller_idle_guard_terminates_witness :
    (startInvestigationEmpty 3 3 (fun _ => false)).iterations ≤ 3 ∧
    (startInvestigationEmpty 3 3 (fun _ => false)).reason = StopReason.idleLimit :=
  controller_idle_guard_terminates 3 (by decide) (fun _ => false) (fun _ => rfl)

/-! ### C5 -/

/-- C5 (amended): `_extract_json` tries the fenced-block strategies first and
the brace-span strategy last, but the ```json fenced branch returns its
content without validation; whenever that branch does not fire, the result
is syntactically valid JSON (a validated fragment or the empty-object
fallback). -/
theorem extract_json_valid_unless_json_fence (text : Str)
    (h : jsonFenceFires text = false) :
    isValidJson (extractJson text) = true := by
  unfold extractJson
  split
  · rename_i r heq
    exfalso
    unfold jsonFenceFires at h
    cases hA : afterFirst fenceJsonTok text with
    | none => rw [hA] at heq; exact Option.noConfusion heq
    | some rest =>
      rw [hA] at heq h
      dsimp only at heq h
      rw [if_neg (by simp [h])] at heq
      exact Option.noConfusion heq
  · split
    · rename_i r heq
      cases hB : afterFirst fenceTok text with
      | none => rw [hB] at heq; exact Option.noConfusion heq
      | some rest =>
        rw [hB] at heq
        dsimp only at heq
        by_cases hc : containsSub fenceTok rest = true
        · rw [if_pos hc] at heq
          by_cases hv : isValidJson (fencedChunk rest) = true
          · rw [if_pos hv] at heq
            injection heq with heq
            rw [heq] at hv
            exact hv
          · rw [if_neg hv] at heq
            exact Option.noConfusion heq
        · rw [if_neg hc] at heq
          exact Option.noConfusion heq
    · split
      · rename_i r heq
        by_cases hb : openBrace ∈ text ∧ closeBrace ∈ text
        · rw [if_pos hb] at heq
          by_cases hv : isValidJson (braceSpan text) = true
          · rw [if_pos hv] at heq
            injection heq with heq
            rw [heq] at hv
            exact hv
          · rw [if_neg hv] at heq
            exact Option.noConfusion heq
        · rw [if_neg hb] at heq
          exact Option.noConfusion heq
      · decide

/-- Witness for C5 (amended): a response with no fence at all falls back to
the valid empty object. -/
theorem extract_json_valid_unless_json_fence_witness :
    isValidJson (extractJson ("no structured reply here".toList)) = true :=
  extract_json_valid_unless_json_fence _ (by decide)

/-- C5 counterexample: a ```json fence containing non-JSON text is returned
as-is, so `_extract_json` does return a syntactically invalid string. -/
theorem extract_json_invalid_counterexample :
    extractJson ("```json\nhello\n```".toList) = "hello".toList ∧
    isValidJson (extractJson ("```json\nhello\n```".toList)) = false := by
  exact ⟨by decide, by decide⟩

/-! ### C1 -/

lemma takeExactHex_chars :
    ∀ (n : Nat) (s pre rest : Str), takeExactHex n s = some (pre, rest) →
      ∀ c ∈ pre, hexDigitChar c = true := by
  intro n
  induction n with
  | zero =>
    intro s pre rest h c hc
    simp only [takeExactHex, Option.some.injEq, Prod.mk.injEq] at h
    rw [← h.1] at hc
    simp at hc
  | succ n ih =>
    intro s pre rest h c hc
    cases s with
    | nil => simp [takeExactHex] at h
    | cons a t =>
      simp only [takeExactHex] at h
      split at h
      · rename_i ha
        cases ht : takeExactHex n t with
        | none => rw [ht] at h; exact Option.noConfusion h
        | some pr =>
          obtain ⟨pre', rest'⟩ := pr
          rw [ht] at h
          simp only [Option.some.injEq, Prod.mk.injEq] at h
          rw [← h.1] at hc
          rcases List.mem_cons.mp hc with rfl | hc'
          · exact ha
          · exact ih t pre' rest' ht c hc'
      · exact Option.noConfusion h

lemma matchLabeledKey_keyChars {s cap rest : Str}
    (h : matchLabeledKey s = some (cap, rest)) :
    ∀ c ∈ cap, keyChar c = true := by
  intro c hc
  unfold matchLabeledKey at h
  cases hl : matchKeyLabel s with
  | none => rw [hl] at h; exact Option.noConfusion h
  | some r0 =>
    rw [hl] at h
    dsimp only at h
    cases ht : takeExactHex 64 (skipQuote (skipSep r0)) with
    | none => rw [ht] at h; exact Option.noConfusion h
    | some pr =>
      obtain ⟨hx, r5⟩ := pr
      rw [ht] at h
      simp only [Option.some.injEq, Prod.mk.injEq] at h
      rw [← h.1] at hc
      exact Bool.or_eq_true _ _ ▸ Or.inl (takeExactHex_chars 64 _ hx r5 ht c hc)

lemma matchHex64_keyChars {s cap rest : Str}
    (h : matchHex64 s = some (cap, rest)) :
    ∀ c ∈ cap, keyChar c = true := by
  intro c hc
  unfold matchHex64 at h
  cases s with
  | nil => exact Option.noConfusion h
  | cons a t0 =>
    cases t0 with
    | nil => exact Option.noConfusion h
    | cons b t =>
      dsimp only at h
      split at h
      · rename_i hab
        obtain ⟨rfl, rfl⟩ := hab
        cases ht : takeExactHex 64 t with
        | none => rw [ht] at h; exact Option.noConfusion h
        | some pr =>
          obtain ⟨hx, r⟩ := pr
          rw [ht] at h
          simp only [Option.some.injEq, Prod.mk.injEq] at h
          rw [← h.1] at hc
          rcases List.mem_cons.mp hc with rfl | hc'
          · decide
          · rcases List.mem_cons.mp hc' with rfl | hc''
            · decide
            · exact Bool.or_eq_true _ _ ▸ Or.inl (takeExactHex_chars 64 t hx r ht c hc'')
      · exact Option.noConfusion h

lemma scanWith_chars {P : Char → Bool} {m : Str → Option (Str × Str)}
    (hm : ∀ s cap rest, m s = some (cap, rest) → ∀ c ∈ cap, P c = true) :
    ∀ (fuel : Nat) (s cap : Str), cap ∈ scanWith m fuel s →
      ∀ c ∈ cap, P c = true := by
  intro fuel
  induction fuel with
  | zero => intro s cap hcap; simp [scanWith] at hcap
  | succ n ih =>
    intro s cap hcap
    cases s with
    | nil => simp [scanWith] at hcap
    | cons a t =>
      simp only [scanWith] at hcap
      cases hm' : m (a :: t) with
      | none => rw [hm'] at hcap; exact ih t cap hcap
      | some pr =>
        obtain ⟨cp, rest⟩ := pr
        rw [hm'] at hcap
        rcases List.mem_cons.mp hcap with rfl | hcap'
        · exact hm _ _ _ hm'
        · exact ih rest cap hcap'

lemma runFamily_content {atype domain : Str} {date : Option Str} :
    ∀ (cands seen : List Str) (a : Artifact),
      a ∈ (runFamily atype domain date cands seen).1 → a.content ∈ cands := by
  intro cands
  induction cands with
  | nil => intro seen a ha; simp [runFamily] at ha
  | cons c cs ih =>
    intro seen a ha
    simp only [runFamily] at ha
    split at ha
    · exact List.mem_cons_of_mem c (ih seen a ha)
    · rcases List.mem_cons.mp ha with rfl | ha'
      · exact List.mem_cons_self c cs
      · exact List.mem_cons_of_mem c (ih _ a ha')

/-- C1 (amended): the −10 warning-phrase penalty is applied to the extracted
artifact content, not to the surrounding document; the content of every
private-key artifact consists of hex characters (possibly prefixed `0x`),
which can never contain a warning phrase, so the penalty never fires for
private-key artifacts — regardless of an "example only" phrase elsewhere in
the same document, and such artifacts can score positive and be promoted. -/
theorem private_key_warning_penalty_never_fires
    (doc domain : Str) (date : Option Str) (seen : List Str) :
    ∀ a ∈ (extract_private_keys doc domain date seen).1,
      (WARNING_PHRASES.any fun w => containsSub w (pyLower a.content)) = false := by
  intro a ha
  apply warning_phrases_miss_hexish
  simp only [extract_private_keys] at ha
  rcases List.mem_append.mp ha with h1 | h2
  · have hc := runFamily_content _ _ _ h1
    exact scanWith_chars (fun s cap rest hm => matchLabeledKey_keyChars hm)
      doc.length doc a.content hc
  · have hc := runFamily_content _ _ _ h2
    exact scanWith_chars (fun s cap rest hm => matchHex64_keyChars hm)
      doc.length doc a.content hc

/-- Witness for C1 (amended), applied to the counterexample document: the
extracted 64-character key contains no warning phrase. -/
theorem private_key_warning_penalty_never_fires_witness :
    (WARNING_PHRASES.any fun w => containsSub w
      (pyLower (⟨"private_key".toList, List.replicate 64 'a',
        List.replicate 64 'a', 6⟩ : Artifact).content)) = false :=
  private_key_warning_penalty_never_fires
    ("example only private key: ".toList ++ List.replicate 64 'a')
    ("ethereum.org".toList) none [] _ (by decide)

/-- C1 counterexample: a document pairing the phrase "example only" with a
labeled 64-hex key, fetched from ethereum.org — the extracted private-key
artifact scores 6 (not ≤ 0) and the Controller promotes it to a Discovery
with adjusted score 8. -/
theorem private_key_example_only_counterexample :
    ((extract_private_keys
        ("example only private key: ".toList ++ List.replicate 64 'a')
        ("ethereum.org".toList) none []).1.map Artifact.score = [6]) ∧
    ((process_artifacts
        (extract_private_keys
          ("example only private key: ".toList ++ List.replicate 64 'a')
          ("ethereum.org".toList) none []).1
        ["vitalik".toList] []).map Discovery.score = [8]) := by
  exact ⟨by decide, by decide⟩

/-! ### C3 -/

lemma mem_addKey {x k : Str} {v : List Str} (h : x ∈ v) : x ∈ addKey k v := by
  unfold addKey
  split
  · exact h
  · exact List.mem_cons_of_mem k h

lemma mem_addKey_self (k : Str) (v : List Str) : k ∈ addKey k v := by
  unfold addKey
  split
  · assumption
  · exact List.mem_cons_self k v

lemma isEmpty_false_of_ne_nil {l : Str} (h : l ≠ []) : l.isEmpty = false := by
  cases l with
  | nil => exact absurd rfl h
  | cons a t => rfl

lemma mem_websiteVisit {x : Str} (f uw : Bool) (url : Str) {v : List Str}
    (h : x ∈ v) : x ∈ websiteVisit f uw url v := by
  unfold websiteVisit
  split
  · exact h
  · split
    · split
      · exact h
      · split
        · exact h
        · exact mem_addKey h
    · split
      · exact h
      · split
        · exact List.mem_cons_of_mem url h
        · split
          · exact mem_addKey (List.mem_cons_of_mem url h)
          · exact List.mem_cons_of_mem url h

lemma mem_dispatchVisited {x : Str} (f : Bool) (t : Target) {v : List Str}
    (h : x ∈ v) : x ∈ dispatchVisited f t v := by
  unfold dispatchVisited
  split
  · exact mem_websiteVisit f t.useWayback t.url h
  · split
    · unfold searchVisit
      split
      · exact h
      · exact mem_addKey h
    · split
      · unfold waybackVisit
        split
        · exact h
        · exact mem_addKey h
      · split
        · unfold githubVisit
          split
          · exact h
          · split
            · exact h
            · exact mem_websiteVisit f false t.url (List.mem_cons_of_mem t.url h)
        · exact h

/-- After dispatching a target of one of the four known kinds whose handler
locator is present (Python nonempty, so the `if not ...: return []` guard is
passed) and whose URL is not a Wayback-calendar URL, its VisitedKey is in
`investigated_urls`. -/
lemma visitedKey_recorded (f : Bool) (t : Target) (v : List Str) (k : Str)
    (hk : visitedKey t = some k)
    (hcal : t.ttype = "website".toList → isCalendarUrl t.url = false)
    (hloc : targetLocator t ≠ []) :
    k ∈ dispatchVisited f t v := by
  unfold visitedKey at hk
  unfold targetLocator at hloc
  unfold dispatchVisited
  by_cases hw : t.ttype = "website".toList
  · rw [if_pos hw] at hk ⊢
    rw [if_neg (by rw [hw]; decide)] at hloc
    injection hk with hk
    subst hk
    unfold websiteVisit
    rw [if_neg (by simp [isEmpty_false_of_ne_nil hloc]), hcal hw]
    simp only [Bool.false_eq_true, if_false]
    split
    · assumption
    · split
      · exact List.mem_cons_self _ _
      · split
        · exact mem_addKey (List.mem_cons_self _ _)
        · exact List.mem_cons_self _ _
  · rw [if_neg hw] at hk ⊢
    by_cases hy : t.ttype = "wayback".toList
    · rw [if_pos hy] at hk
      rw [if_neg (by rw [hy]; decide)] at hloc
      injection hk with hk
      subst hk
      rw [if_neg (by rw [hy]; decide), if_pos hy]
      unfold waybackVisit
      rw [if_neg (by simp [isEmpty_false_of_ne_nil hloc])]
      exact mem_addKey_self _ _
    · rw [if_neg hy] at hk
      by_cases hs : t.ttype = "search".toList
      · rw [if_pos hs] at hk
        rw [if_pos hs] at hloc
        injection hk with hk
        subst hk
        rw [if_pos hs]
        unfold searchVisit
        rw [if_neg (by simp [isEmpty_false_of_ne_nil hloc])]
        exact mem_addKey_self _ _
      · rw [if_neg hs] at hk
        by_cases hg : t.ttype = "github".toList
        · rw [if_pos hg] at hk
          rw [if_neg hs] at hloc
          injection hk with hk
          subst hk
          rw [if_neg hs, if_neg hy, if_pos hg]
          unfold githubVisit
          rw [if_neg (by simp [isEmpty_false_of_ne_nil hloc])]
          split
          · assumption
          · exact mem_websiteVisit f false t.url (List.mem_cons_self _ _)
        · rw [if_neg hg] at hk
          exact Option.noConfusion hk

lemma dispatchFold_mono {k : Str} :
    ∀ (ds : List (Bool × Target)) (v : List Str), k ∈ v →
      k ∈ ds.foldl (fun w d => dispatchVisited d.1 d.2 w) v := by
  intro ds
  induction ds with
  | nil => intro v h; exact h
  | cons d ds ih => intro v h; exact ih _ (mem_dispatchVisited d.1 d.2 h)

lemma filterNew_drops {v : List Str} {t' : Target} {k : Str}
    (hk : visitedKey t' = some k) (hv : k ∈ v) (ts : List Target) :
    t' ∉ filterNew v ts := by
  intro hmem
  have hkeep := (List.mem_filter.mp hmem).2
  rw [decide_eq_true_eq] at hkeep
  apply hkeep
  unfold visitedKey at hk
  by_cases hw : t'.ttype = "website".toList
  · rw [if_pos hw] at hk
    injection hk with hk
    exact Or.inl ⟨hw, hk ▸ hv⟩
  · rw [if_neg hw] at hk
    by_cases hy : t'.ttype = "wayback".toList
    · rw [if_pos hy] at hk
      injection hk with hk
      exact Or.inr (Or.inl ⟨hy, hk ▸ hv⟩)
    · rw [if_neg hy] at hk
      by_cases hs : t'.ttype = "search".toList
      · rw [if_pos hs] at hk
        injection hk with hk
        exact Or.inr (Or.inr (Or.inl ⟨hs, hk ▸ hv⟩))
      · rw [if_neg hs] at hk
        by_cases hg : t'.ttype = "github".toList
        · rw [if_pos hg] at hk
          injection hk with hk
          exact Or.inr (Or.inr (Or.inr ⟨hg, hk ▸ hv⟩))
        · rw [if_neg hg] at hk
          exact Option.noConfusion hk

/-- C3 (amended): for targets of the four known kinds whose handler locator
is present (Python truthiness: the handlers return early on a missing
URL/query without recording anything), except website (or github-delegated)
targets whose URL is a Wayback-calendar URL (`'*'` plus
`web.archive.org/web/`): once such a target is dispatched, its VisitedKey is
recorded, the visited set only grows under further dispatches, and any later
push drops every target carrying the same VisitedKey before insertion. -/
theorem visited_suppression_push_drop (t : Target) (k : Str)
    (hk : visitedKey t = some k)
    (hcal : t.ttype = "website".toList → isCalendarUrl t.url = false)
    (hloc : targetLocator t ≠ [])
    (f : Bool) (v : List Str) (ds : List (Bool × Target)) (later : List Target)
    (t' : Target) (hk' : visitedKey t' = some k) :
    t' ∉ filterNew (ds.foldl (fun w d => dispatchVisited d.1 d.2 w)
      (dispatchVisited f t v)) later :=
  filterNew_drops hk'
    (dispatchFold_mono ds _ (visitedKey_recorded f t v k hk hcal hloc)) later

/-- Witness for C3 (amended): a dispatched search query is dropped when
pushed again. -/
theorem visited_suppression_push_drop_witness :
    (⟨"search".toList, [], "vitalik buterin".toList, 8, false⟩ : Target) ∉
      filterNew
        (dispatchVisited true
          ⟨"search".toList, [], "vitalik buterin".toList, 8, false⟩ [])
        [⟨"search".toList, [], "vitalik buterin".toList, 8, false⟩] :=
  visited_suppression_push_drop
    ⟨"search".toList, [], "vitalik buterin".toList, 8, false⟩
    ("search:".toList ++ "vitalik buterin".toList)
    (by decide) (fun hcontra => absurd hcontra (by decide)) (by decide)
    true [] [] [⟨"search".toList, [], "vitalik buterin".toList, 8, false⟩]
    ⟨"search".toList, [], "vitalik buterin".toList, 8, false⟩ (by decide)

/-- C3 counterexample: dispatching a `website` target whose URL is a Wayback
calendar URL records no VisitedKey for it, so pushing an equal-keyed target
afterwards is not dropped — it stays in the push result and would be
dispatched again. -/
theorem visited_suppression_counterexample :
    filterNew
      (dispatchVisited true
        ⟨"website".toList,
         "https://web.archive.org/web/2014*/http://vitalik.ca".toList,
         [], 9, false⟩ [])
      [⟨"website".toList,
        "https://web.archive.org/web/2014*/http://vitalik.ca".toList,
        [], 7, false⟩] =
    [⟨"website".toList,
      "https://web.archive.org/web/2014*/http://vitalik.ca".toList,
      [], 7, false⟩] := by decide

/-! ### C9 -/

/-- The inlined score adjustment of the `_process_artifacts` loop equals the
one-formula statement `adjustedScoreSpec`. -/
lemma loop_score_eq_spec (aliases : List Str) (a : Artifact) :
    (if aliases.any fun al => containsSub (pyLower al) (pyLower a.content)
     then a.score + (if a.atype ∈ highValueTypes then 2 else 0) + 1
     else a.score + (if a.atype ∈ highValueTypes then 2 else 0)) =
      adjustedScoreSpec aliases a := by
  unfold adjustedScoreSpec
  by_cases h : (aliases.any fun al => containsSub (pyLower al) (pyLower a.content)) = true
  · rw [if_pos h, if_pos h]
  · rw [if_neg h, if_neg h, add_zero]

lemma processArtifactsLoop_pos :
    ∀ (arts : List Artifact) (aliases : List Str) (allDisc : List Discovery),
      ∀ d ∈ (processArtifactsLoop arts aliases allDisc).1, 0 < d.score := by
  intro arts
  induction arts with
  | nil => intro aliases allDisc d hd; simp [processArtifactsLoop] at hd
  | cons a rest ih =>
    intro aliases allDisc d hd
    simp only [processArtifactsLoop] at hd
    rw [loop_score_eq_spec aliases a] at hd
    by_cases hgate : adjustedScoreSpec aliases a ≤ 0
    · rw [if_pos hgate] at hd
      exact ih _ _ d hd
    · rw [if_neg hgate] at hd
      by_cases hdup : isDuplicateDiscovery allDisc
          ⟨a.hash, a.atype, a.content, adjustedScoreSpec aliases a⟩ = true
      · rw [if_pos hdup] at hd
        exact ih _ _ d hd
      · rw [if_neg hdup] at hd
        rcases List.mem_cons.mp hd with rfl | hd'
        · exact Int.not_le.mp hgate
        · exact ih _ _ d hd'

lemma processArtifacts_singleton (aliases : List Str) (prior : List Discovery)
    (a : Artifact) :
    process_artifacts [a] aliases prior =
      if 0 < adjustedScoreSpec aliases a then
        if isDuplicateDiscovery prior
            ⟨a.hash, a.atype, a.content, adjustedScoreSpec aliases a⟩
        then [] else [⟨a.hash, a.atype, a.content, adjustedScoreSpec aliases a⟩]
      else [] := by
  simp only [process_artifacts, processArtifactsLoop]
  rw [loop_score_eq_spec aliases a]
  by_cases hp : 0 < adjustedScoreSpec aliases a
  · rw [if_neg (Int.not_le.mpr hp), if_pos hp]
    by_cases hdup : isDuplicateDiscovery prior
        ⟨a.hash, a.atype, a.content, adjustedScoreSpec aliases a⟩ = true
    · rw [if_pos hdup, if_pos hdup]
    · rw [if_neg hdup, if_neg hdup]
  · rw [if_pos (Int.not_lt.mp hp), if_neg hp]

/-- C9: before the positivity gate, `_process_artifacts` adds exactly +2 to
the extraction score of artifacts whose type is username, alias,
wallet_address or private_key, plus +1 when a known entity alias occurs
case-insensitively in the content; an artifact is promoted to a Discovery
only if the adjusted score is strictly positive. -/
theorem process_artifacts_adjust_and_gate (aliases : List Str)
    (prior : List Discovery) (arts : List Artifact) :
    (∀ d ∈ process_artifacts arts aliases prior, 0 < d.score) ∧
    (∀ a : Artifact,
      process_artifacts [a] aliases prior =
        if 0 < adjustedScoreSpec aliases a then
          if isDuplicateDiscovery prior
              ⟨a.hash, a.atype, a.content, adjustedScoreSpec aliases a⟩
          then [] else [⟨a.hash, a.atype, a.content, adjustedScoreSpec aliases a⟩]
        else []) :=
  ⟨fun d hd => processArtifactsLoop_pos arts aliases prior d hd,
   fun a => processArtifacts_singleton aliases prior a⟩

/-- Witness for C9: a username artifact with extraction score 1 is promoted
with adjusted score 1 + 2 = 3 > 0. -/
theorem process_artifacts_adjust_and_gate_witness :
    0 < (⟨"vbuterin".toList, "username".toList, "vbuterin".toList, 3⟩ : Discovery).score :=
  (process_artifacts_adjust_and_gate [] []
    [⟨"username".toList, "vbuterin".toList, "vbuterin".toList, 1⟩]).1
    ⟨"vbuterin".toList, "username".toList, "vbuterin".toList, 3⟩ (by decide)

/-! ### C7 -/

lemma runFamily_invariant (atype domain : Str) (date : Option Str) :
    ∀ (cands seen : List Str),
      ((runFamily atype domain date cands seen).1.map Artifact.hash).Nodup ∧
      (∀ h ∈ (runFamily atype domain date cands seen).1.map Artifact.hash,
        h ∉ seen) ∧
      (∀ h ∈ seen, h ∈ (runFamily atype domain date cands seen).2) ∧
      (∀ h ∈ (runFamily atype domain date cands seen).1.map Artifact.hash,
        h ∈ (runFamily atype domain date cands seen).2) := by
  intro cands
  induction cands with
  | nil =>
    intro seen
    refine ⟨List.nodup_nil, ?_, ?_, ?_⟩ <;> simp [runFamily]
  | cons c cs ih =>
    intro seen
    simp only [runFamily]
    by_cases hmem : generate_hash c ∈ seen
    · rw [if_pos hmem]
      exact ih seen
    · rw [if_neg hmem]
      obtain ⟨ih1, ih2, ih3, ih4⟩ := ih (generate_hash c :: seen)
      refine ⟨?_, ?_, ?_, ?_⟩
      · simp only [List.map_cons]
        refine List.nodup_cons.mpr ⟨?_, ih1⟩
        intro hcon
        exact (ih2 _ hcon) (List.mem_cons_self _ _)
      · simp only [List.map_cons]
        intro h hh
        rcases List.mem_cons.mp hh with rfl | hh'
        · exact hmem
        · exact fun hcon => (ih2 h hh') (List.mem_cons_of_mem _ hcon)
      · intro h hh
        exact ih3 h (List.mem_cons_of_mem _ hh)
      · simp only [List.map_cons]
        intro h hh
        rcases List.mem_cons.mp hh with rfl | hh'
        · exact ih3 _ (List.mem_cons_self _ _)
        · exact ih4 h hh'

lemma extractFold_nodup (domain : Str) (date : Option Str) :
    ∀ (fams : List (Str × (Str → List Str))) (doc : Str)
      (acc : List Artifact × List Str),
      (acc.1.map Artifact.hash).Nodup →
      (∀ h ∈ acc.1.map Artifact.hash, h ∈ acc.2) →
      ((fams.foldl (fun acc fam =>
          let r := runFamily fam.1 domain date (fam.2 doc) acc.2
          (acc.1 ++ r.1, r.2)) acc).1.map Artifact.hash).Nodup := by
  intro fams
  induction fams with
  | nil => intro doc acc h1 h2; exact h1
  | cons fam fams ih =>
    intro doc acc h1 h2
    simp only [List.foldl_cons]
    obtain ⟨r1, r2, r3, r4⟩ := runFamily_invariant fam.1 domain date (fam.2 doc) acc.2
    apply ih doc
    · rw [List.map_append]
      refine List.Nodup.append h1 r1 ?_
      intro x hx1 hx2
      exact (r2 x hx2) (h2 x hx1)
    · intro h hh
      rw [List.map_append] at hh
      rcases List.mem_append.mp hh with h' | h'
      · exact r3 h (h2 h h')
      · exact r4 h h'

/-- C7: one call to the artifact extraction entry point returns artifacts
with pairwise-distinct content hashes, across all families: a candidate
whose normalized hash was already produced earlier in the same call is
dropped. -/
theorem extract_artifacts_hash_nodup (fams : List (Str × (Str → List Str)))
    (domain : Str) (date : Option Str) (content : Option Str) :
    ((extract_artifacts_from_html fams domain date content).map Artifact.hash).Nodup := by
  cases content with
  | none => exact List.nodup_nil
  | some doc =>
    unfold extract_artifacts_from_html
    dsimp only
    by_cases hlen : doc.length < 100
    · rw [if_pos hlen]; exact List.nodup_nil
    · rw [if_neg hlen]
      exact extractFold_nodup domain date fams doc ([], []) List.nodup_nil (by simp)

/-! ### C2 -/

lemma filter_orderedInsert (v : Int) (a : Target) :
    ∀ l : List Target,
      (List.orderedInsert tge a l).filter (fun x => decide (x.priority = v)) =
        (a :: l).filter (fun x => decide (x.priority = v)) := by
  intro l
  induction l with
  | nil => rfl
  | cons b bs ih =>
    by_cases hab : tge a b
    · rw [List.orderedInsert_of_le tge bs hab]
    · have hoi : List.orderedInsert tge a (b :: bs) =
          b :: List.orderedInsert tge a bs := by
        simp [List.orderedInsert, hab]
      have hba : a.priority < b.priority := Int.not_le.mp hab
      rw [hoi]
      by_cases hbv : b.priority = v
      · have hav : ¬ (a.priority = v) := by omega
        simp [List.filter_cons, hbv, hav, ih]
      · by_cases hav : a.priority = v
        · simp [List.filter_cons, hbv, hav, ih]
        · simp [List.filter_cons, hbv, hav, ih]

lemma filter_insertionSort (v : Int) :
    ∀ l : List Target,
      (List.insertionSort tge l).filter (fun x => decide (x.priority = v)) =
        l.filter (fun x => decide (x.priority = v)) := by
  intro l
  induction l with
  | nil => rfl
  | cons a l ih =>
    simp only [List.insertionSort]
    rw [filter_orderedInsert v a (List.insertionSort tge l),
      List.filter_cons, List.filter_cons, ih]

lemma sorted_updateQueue_fold (visited : List Str) :
    ∀ (batches : List (List Target)) (q : List Target), List.Sorted tge q →
      List.Sorted tge (batches.foldl (updateResearchQueue visited) q) := by
  intro batches
  induction batches with
  | nil => intro q hq; exact hq
  | cons b bs ih =>
    intro q _
    simp only [List.foldl_cons]
    exact ih _ (List.sorted_insertionSort tge _)

lemma filter_pushAll (visited : List Str) (v : Int) :
    ∀ (batches : List (List Target)) (q : List Target),
      (batches.foldl (updateResearchQueue visited) q).filter
          (fun x => decide (x.priority = v)) =
        q.filter (fun x => decide (x.priority = v)) ++
          ((batches.map (filterNew visited)).flatten).filter
            (fun x => decide (x.priority = v)) := by
  intro batches
  induction batches with
  | nil => intro q; simp
  | cons b bs ih =>
    intro q
    simp only [List.foldl_cons, List.map_cons, List.flatten_cons]
    rw [ih]
    unfold updateResearchQueue
    rw [filter_insertionSort v, List.filter_append, List.filter_append,
      List.append_assoc]

/-- C2: after any sequence of pushes starting from an empty frontier, `pop`
removes and returns a target of maximum priority among those remaining, and
for every priority value the queue preserves the original relative insertion
order of the surviving targets of that priority (the re-sort after each push
is stable). -/
theorem frontier_pop_max_and_stable (visited : List Str)
    (batches : List (List Target)) :
    (∀ t rest, popTarget (pushAll visited batches) = some (t, rest) →
      ∀ u ∈ rest, u.priority ≤ t.priority) ∧
    (∀ v : Int,
      (pushAll visited batches).filter (fun x => decide (x.priority = v)) =
        ((batches.map (filterNew visited)).flatten).filter
          (fun x => decide (x.priority = v))) := by
  constructor
  · intro t rest hpop u hu
    have hs : List.Sorted tge (pushAll visited batches) :=
      sorted_updateQueue_fold visited batches [] List.sorted_nil
    cases hq : pushAll visited batches with
    | nil => rw [hq] at hpop; simp [popTarget] at hpop
    | cons t0 r0 =>
      rw [hq] at hpop hs
      simp only [popTarget, Option.some.injEq, Prod.mk.injEq] at hpop
      obtain ⟨rfl, rfl⟩ := hpop
      exact List.rel_of_sorted_cons hs u hu
  · intro v
    have h := filter_pushAll visited v batches []
    simpa [pushAll] using h

/-- Witness for C2: two website targets pushed in separate batches with
priorities 7 then 9; the pop returns the priority-9 target and the remaining
priority-7 target is below it. -/
theorem frontier_pop_max_and_stable_witness :
    (⟨"website".toList, "https://a.org".toList, [], 7, false⟩ : Target).priority ≤
      (⟨"website".toList, "https://b.org".toList, [], 9, false⟩ : Target).priority :=
  (frontier_pop_max_and_stable []
    [[⟨"website".toList, "https://a.org".toList, [], 7, false⟩],
     [⟨"website".toList, "https://b.org".toList, [], 9, false⟩]]).1
    ⟨"website".toList, "https://b.org".toList, [], 9, false⟩
    [⟨"website".toList, "https://a.org".toList, [], 7, false⟩]
    (by decide)
    ⟨"website".toList, "https://a.org".toList, [], 7, false⟩ (by decide)

/-! ### C4 -/

lemma sorted_head_min {s : Snapshot} {rest : List Snapshot}
    (h : List.Sorted tsle (s :: rest)) :
    ∀ u ∈ s :: rest, s.timestamp ≤ u.timestamp := by
  intro u hu
  rcases List.mem_cons.mp hu with rfl | hu'
  · exact le_refl _
  · exact List.rel_of_sorted_cons h u hu'

lemma sorted_getLast_max :
    ∀ (l : List Snapshot) (h : l ≠ []), List.Sorted tsle l →
      ∀ u ∈ l, u.timestamp ≤ (l.getLast h).timestamp := by
  intro l
  induction l with
  | nil => intro h; exact absurd rfl h
  | cons a t ih =>
    intro h hs u hu
    cases t with
    | nil =>
      rcases List.mem_cons.mp hu with rfl | hu'
      · exact le_refl _
      · simp at hu'
    | cons b t2 =>
      rw [List.getLast_cons (List.cons_ne_nil b t2)]
      rcases List.mem_cons.mp hu with rfl | hu'
      · exact List.rel_of_sorted_cons hs _ (List.getLast_mem (List.cons_ne_nil b t2))
      · exact ih (List.cons_ne_nil b t2) hs.of_cons u hu'

/-- C4: the snapshot sampler returns at most 5 entries; with 5 or fewer
snapshots it returns the input unchanged; with more it returns the
timestamp-earliest and timestamp-latest snapshots followed by exactly 3
interior snapshots drawn without replacement (`random.sample` as any
function returning a sub-permutation of the requested size). -/
theorem snapshot_sampler_bound (snapshots : List Snapshot)
    (pick : List Snapshot → List Snapshot)
    (hlen : ∀ ms, (pick ms).length = min 3 ms.length)
    (hsub : ∀ ms, List.Subperm (pick ms) ms) :
    (sampleSnapshots pick snapshots).length ≤ 5 ∧
    (snapshots.length ≤ 5 → sampleSnapshots pick snapshots = snapshots) ∧
    (5 < snapshots.length →
      ∃ e l mid, e ∈ snapshots ∧ l ∈ snapshots ∧
        (∀ u ∈ snapshots, e.timestamp ≤ u.timestamp) ∧
        (∀ u ∈ snapshots, u.timestamp ≤ l.timestamp) ∧
        List.Subperm mid ((List.insertionSort tsle snapshots).tail.dropLast) ∧
        mid.length = 3 ∧
        sampleSnapshots pick snapshots = e :: l :: mid) := by
  by_cases h5 : 5 < snapshots.length
  case neg =>
    have heq : sampleSnapshots pick snapshots = snapshots := by
      unfold sampleSnapshots
      rw [if_neg h5]
    refine ⟨?_, fun _ => heq, fun hcon => absurd hcon (by omega)⟩
    rw [heq]; omega
  case pos =>
    cases hsort : List.insertionSort tsle snapshots with
    | nil =>
      exfalso
      have := (List.perm_insertionSort tsle snapshots).length_eq
      rw [hsort] at this
      simp at this
      omega
    | cons s rest =>
      have hsorted : List.Sorted tsle (s :: rest) := by
        rw [← hsort]; exact List.sorted_insertionSort tsle snapshots
      have hpermlen : (s :: rest).length = snapshots.length := by
        rw [← hsort]; exact (List.perm_insertionSort tsle snapshots).length_eq
      have hmem : ∀ x : Snapshot, x ∈ s :: rest ↔ x ∈ snapshots := by
        intro x; rw [← hsort]; exact (List.perm_insertionSort tsle snapshots).mem_iff
      have hunf : sampleSnapshots pick snapshots =
          [s, (s :: rest).getLast (List.cons_ne_nil s rest)] ++
            pick ((s :: rest).tail.dropLast) := by
        unfold sampleSnapshots
        rw [if_pos h5, hsort]
        dsimp only
        rw [if_pos (by simp only [List.length_cons] at hpermlen ⊢; omega)]
      have hmidlen : (rest.dropLast).length = snapshots.length - 2 := by
        simp only [List.length_cons] at hpermlen
        rw [List.length_dropLast]
        omega
      have hpicklen : (pick (rest.dropLast)).length = 3 := by
        rw [hlen, hmidlen]
        omega
      refine ⟨?_, fun hcon => absurd hcon (by omega), fun _ =>
        ⟨s, (s :: rest).getLast (List.cons_ne_nil s rest), pick (rest.dropLast),
          ?_, ?_, ?_, ?_, ?_, hpicklen, ?_⟩⟩
      · rw [hunf]
        simp only [List.tail_cons, List.length_append, List.length_cons,
          List.length_nil, hpicklen]
        omega
      · exact (hmem s).mp (List.mem_cons_self s rest)
      · exact (hmem _).mp (List.getLast_mem (List.cons_ne_nil s rest))
      · intro u hu
        exact sorted_head_min hsorted u ((hmem u).mpr hu)
      · intro u hu
        exact sorted_getLast_max (s :: rest) (List.cons_ne_nil s rest) hsorted
          u ((hmem u).mpr hu)
      · exact hsub _
      · rw [hunf]
        rfl

/-- Witness for C4 at six concrete snapshots, with `random.sample` modelled
by taking the first three interior entries. -/
theorem snapshot_sampler_bound_witness :
    (sampleSnapshots (fun ms => ms.take 3)
      [⟨"2013", "u1"⟩, ⟨"2014", "u2"⟩, ⟨"2015", "u3"⟩,
       ⟨"2016", "u4"⟩, ⟨"2017", "u5"⟩, ⟨"2018", "u6"⟩]).length ≤ 5 :=
  (snapshot_sampler_bound _ _
    (fun ms => by rw [List.length_take])
    (fun ms => (List.take_sublist 3 ms).subperm)).1

/-! ### C6 -/

lemma takeExactHex_full :
    ∀ (n : Nat) (xs : Str), xs.length = n → (∀ c ∈ xs, hexDigitChar c = true) →
      takeExactHex n xs = some (xs, []) := by
  intro n
  induction n with
  | zero =>
    intro xs hlen hhex
    cases xs with
    | nil => rfl
    | cons a t => simp at hlen
  | succ n ih =>
    intro xs hlen hhex
    cases xs with
    | nil => simp at hlen
    | cons a t =>
      simp only [takeExactHex]
      rw [if_pos (hhex a (List.mem_cons_self a t)),
        ih t (by simpa using hlen) (fun c hc => hhex c (List.mem_cons_of_mem a hc))]

lemma scanWith_nil (m : Str → Option (Str × Str)) :
    ∀ fuel, scanWith m fuel [] = [] := by
  intro fuel; cases fuel <;> rfl

lemma scanWith_single {m : Str → Option (Str × Str)} {s : Str}
    (hm : m s = some (s, [])) (hs : s ≠ []) :
    scanWith m s.length s = [s] := by
  cases s with
  | nil => exact absurd rfl hs
  | cons a t =>
    simp only [List.length_cons, scanWith, hm]
    rw [scanWith_nil]

lemma score_ethereum_org_keyish (c : Str)
    (hkey : ∀ ch ∈ c, keyChar ch = true) (hlen : 20 < c.length) :
    score_artifact ("ethereum.org".toList) c none = 6 := by
  simp only [score_artifact]
  rw [show (TRUSTED_DOMAINS.any fun t => t.isSuffixOf ("ethereum.org".toList)) = true
      from by decide]
  rw [show ((".org".toList).isSuffixOf ("ethereum.org".toList)) = true from by decide]
  rw [show (COMMUNITY_DOMAINS.any fun t => t.isSuffixOf ("ethereum.org".toList)) = false
      from by decide]
  rw [warning_phrases_miss_hexish hkey]
  simp only [if_true, Bool.false_eq_true, if_false]
  rw [if_pos hlen]
  norm_num

/-- C6: for content that is `0x` followed by 40 hex characters, extracted
with source domain ethereum.org and no content date, the extractor emits
exactly one wallet-address artifact and the scoring function returns
3 (trusted domain) + 1 (.org suffix) + 2 (length over the plausibility
threshold) = 6. -/
theorem wallet_address_trusted_org_score (c : Str)
    (h : ∃ hx, c = '0' :: 'x' :: hx ∧ hx.length = 40 ∧
      ∀ ch ∈ hx, hexDigitChar ch = true) :
    extract_wallet_addresses c ("ethereum.org".toList) none [] =
      ([⟨"wallet_address".toList, c, generate_hash c, 6⟩], [generate_hash c]) ∧
    score_artifact ("ethereum.org".toList) c none = 6 := by
  obtain ⟨hx, rfl, hxlen, hxhex⟩ := h
  have hkey : ∀ ch ∈ '0' :: 'x' :: hx, keyChar ch = true := by
    intro ch hch
    rcases List.mem_cons.mp hch with rfl | hch'
    · decide
    · rcases List.mem_cons.mp hch' with rfl | hch''
      · decide
      · exact Bool.or_eq_true _ _ ▸ Or.inl (hxhex ch hch'')
  have hscore : score_artifact ("ethereum.org".toList) ('0' :: 'x' :: hx) none = 6 :=
    score_ethereum_org_keyish _ hkey (by simp [hxlen])
  refine ⟨?_, hscore⟩
  have hmatch : matchAddress ('0' :: 'x' :: hx) = some ('0' :: 'x' :: hx, []) := by
    unfold matchAddress
    dsimp only
    rw [if_pos ⟨rfl, rfl⟩, takeExactHex_full 40 hx hxlen hxhex]
  have hscan : scanWith matchAddress ('0' :: 'x' :: hx).length ('0' :: 'x' :: hx) =
      [('0' :: 'x' :: hx)] := scanWith_single hmatch (by simp)
  unfold extract_wallet_addresses
  rw [hscan]
  simp only [runFamily, mkArtifact]
  rw [if_neg (by simp), hscore]

/-- Witness for C6 at the address `0x` + 40 `a`s. -/
theorem wallet_address_trusted_org_score_witness :
    extract_wallet_addresses ('0' :: 'x' :: List.replicate 40 'a')
        ("ethereum.org".toList) none [] =
      ([⟨"wallet_address".toList, '0' :: 'x' :: List.replicate 40 'a',
         generate_hash ('0' :: 'x' :: List.replicate 40 'a'), 6⟩],
       [generate_hash ('0' :: 'x' :: List.replicate 40 'a')]) ∧
    score_artifact ("ethereum.org".toList) ('0' :: 'x' :: List.replicate 40 'a') none = 6 :=
  wallet_address_trusted_org_score _
    ⟨List.replicate 40 'a', rfl, by decide, by decide⟩
